import Mathlib

/-!
Verification of the Bilker Q&A-generation pipeline.

Shallow embedding of the pipeline's core logic:
  * `src/process_data.py`   — `DocumentChunker.chunk_text` (word-window chunking)
  * `src/chunk_processor.py` — `ChunkProcessor.call_llm`, `parse_qa_response`,
    `_validate_qa_pair`, `_clean_text`, `find_unprocessed_chunks`,
    `process_chunk_file`

Python strings are modelled as `List Char`; Python `int` as `Nat`/`Int`.
-/

/-! ## Python string primitives -/

/-- Characters Python's `str.split()` / `str.strip()` treat as whitespace
(space, tab, newline, carriage return, vertical tab, form feed). -/
def pyIsSpace (c : Char) : Bool :=
  c = ' ' || c = '\t' || c = '\n' || c = '\r' || c = Char.ofNat 11 || c = Char.ofNat 12

/-- Python `str.strip()` with no arguments: drop leading and trailing whitespace. -/
def pyStrip (cs : List Char) : List Char :=
  ((cs.dropWhile pyIsSpace).reverse.dropWhile pyIsSpace).reverse

/-- Helper for `pySplit`: `acc` is the current in-progress word, reversed. -/
def pySplitAux : List Char → List Char → List (List Char)
  | [], acc => if acc.isEmpty then [] else [acc.reverse]
  | c :: rest, acc =>
    if pyIsSpace c then
      if acc.isEmpty then pySplitAux rest [] else acc.reverse :: pySplitAux rest []
    else pySplitAux rest (c :: acc)

/-- Python `str.split()` with no arguments: split on whitespace runs,
discarding empty pieces. -/
def pySplit (cs : List Char) : List (List Char) := pySplitAux cs []

/-- Python `' '.join(words)`. -/
def joinSpace : List (List Char) → List Char
  | [] => []
  | [w] => w
  | w :: x :: rest => w ++ ' ' :: joinSpace (x :: rest)

/-- Python `needle in haystack` (substring containment). -/
def containsSub : List Char → List Char → Bool
  | [], needle => needle.isEmpty
  | c :: rest, needle => needle.isPrefixOf (c :: rest) || containsSub rest needle

/-- Python `str.lower()` (adequate for the ASCII data this pipeline handles). -/
def pyLower (cs : List Char) : List Char := cs.map Char.toLower

/-- `true` when no two consecutive characters are both a plain space. -/
def noDoubleSpace : List Char → Bool
  | [] => true
  | [_] => true
  | a :: b :: rest => !(a = ' ' && b = ' ') && noDoubleSpace (b :: rest)

/-- The terminal punctuation characters of `_clean_text`. -/
def isTerminalChar (c : Char) : Bool :=
  c = '.' || c = '!' || c = '?' || c = ':' || c = ';'

/-- Python `text.endswith(('.', '!', '?', ':', ';'))`. -/
def endsWithTerminal (cs : List Char) : Bool :=
  match cs.getLast? with
  | some c => isTerminalChar c
  | none => false

/-- The backtick character (written via its code point). -/
def backtickChar : Char := Char.ofNat 96

/-- Scanner for Python `response.replace(three backticks, empty string)`:
left-to-right removal of non-overlapping occurrences of a triple backtick.
The scan either removes a triple at the current position or advances one
character; the fuel argument (at least the input length) makes the recursion
structural, so the definition computes in the kernel. -/
def removeTBFuel : Nat → List Char → List Char
  | 0, cs => cs
  | _ + 1, [] => []
  | n + 1, c1 :: rest =>
    match rest with
    | c2 :: c3 :: rest2 =>
      if c1 = backtickChar ∧ c2 = backtickChar ∧ c3 = backtickChar then
        removeTBFuel n rest2
      else c1 :: removeTBFuel n (c2 :: c3 :: rest2)
    | _ => c1 :: removeTBFuel n rest

/-- Python `response.replace(three backticks, empty string)`. -/
def removeTripleBacktick (cs : List Char) : List Char :=
  removeTBFuel cs.length cs

/-! ## Regex-marker models

`parse_qa_response` uses three regex operations, all with `re.IGNORECASE`:
`re.split` on a newline-optional Q marker, `re.search` for a newline-optional
A marker, and `re.search` for a newline-optional Q marker.  The pattern is a
literal optional newline, the letter, and a colon, so a match anchored at a
position has length 3 (with the newline) or 2 (without). -/

def isQmark (c : Char) : Bool := c = 'Q' || c = 'q'

def isAmark (c : Char) : Bool := c = 'A' || c = 'a'

/-- Length of a match of the newline-optional `Q:` pattern anchored at the head
of `cs`, if any (3 with a leading newline, 2 without). -/
def qMatchLen (cs : List Char) : Option Nat :=
  match cs with
  | '\n' :: c :: ':' :: _ => if isQmark c then some 3 else none
  | c :: ':' :: _ => if isQmark c then some 2 else none
  | _ => none

/-- Length of a match of the newline-optional `A:` pattern anchored at the head
of `cs`, if any. -/
def aMatchLen (cs : List Char) : Option Nat :=
  match cs with
  | '\n' :: c :: ':' :: _ => if isAmark c then some 3 else none
  | c :: ':' :: _ => if isAmark c then some 2 else none
  | _ => none

/-- `re.split` on the newline-optional `Q:` pattern: scan left to right; each
match ends the current piece and the scan resumes after the match, otherwise
the scan advances one character.  `qMatchLen` only returns 2 or 3, so the two
match arms realise drops of 2 and 3 characters.  The fuel argument (at least
the input length) makes the recursion structural, so the definition computes
in the kernel. -/
def reSplitQFuel : Nat → List Char → List Char → List (List Char)
  | 0, cs, acc => [acc.reverse ++ cs]
  | _ + 1, [], acc => [acc.reverse]
  | n + 1, c :: rest, acc =>
    match qMatchLen (c :: rest) with
    | some 3 => acc.reverse :: reSplitQFuel n (rest.drop 2) []
    | some _ => acc.reverse :: reSplitQFuel n (rest.drop 1) []
    | none => reSplitQFuel n rest (c :: acc)

def reSplitQ (cs : List Char) : List (List Char) := reSplitQFuel cs.length cs []

/-- `re.search` for the newline-optional `A:` pattern: returns the text before
the first match and the text after it, or `none` when there is no match. -/
def searchSplitA : List Char → Option (List Char × List Char)
  | [] => none
  | c :: rest =>
    match aMatchLen (c :: rest) with
    | some 3 => some ([], rest.drop 2)
    | some _ => some ([], rest.drop 1)
    | none =>
      match searchSplitA rest with
      | some (pre, post) => some (c :: pre, post)
      | none => none

/-- `re.search` for the newline-optional `Q:` pattern: returns the text before
the first match, or `none` when there is no match. -/
def searchBeforeQ : List Char → Option (List Char)
  | [] => none
  | c :: rest =>
    match qMatchLen (c :: rest) with
    | some _ => some []
    | none => (searchBeforeQ rest).map (c :: ·)

/-! ## `ChunkProcessor._validate_qa_pair` and `_clean_text`
(`src/chunk_processor.py`, lines 216-256). -/

/-- The placeholder markers of `_validate_qa_pair`. -/
def placeholders : List (List Char) :=
  ["[insert".toList, "[describe".toList, "[explain".toList,
   "lorem ipsum".toList, "example text".toList]

/-- The interrogative/imperative indicator tokens of `_validate_qa_pair`. -/
def question_indicators : List (List Char) :=
  ["?".toList, "how".toList, "what".toList, "when".toList, "where".toList,
   "why".toList, "which".toList, "describe".toList, "explain".toList,
   "list".toList, "identify".toList]

/-- `ChunkProcessor._validate_qa_pair(question, answer)`.  The Python code
compares `len(unique_words) / len(answer_words) < 0.3` with float division;
it is modelled here by the exact rational comparison
`10 * unique < 3 * total`, which agrees with the float comparison for every
answer of fewer than about 10^15 words. -/
def validate_qa_pair (question answer : List Char) : Bool :=
  if question.length < 15 || answer.length < 30 then false
  else if placeholders.any (fun p =>
      containsSub (pyLower question) p || containsSub (pyLower answer) p) then false
  else if !question_indicators.any (fun ind => containsSub (pyLower question) ind) then false
  else if (pySplit answer).length < 8 then false
  else if 10 * (pySplit answer).dedup.length < 3 * (pySplit answer).length then false
  else true

/-- Line 247 of `_clean_text`: `' '.join(text.split())`. -/
def clean_step1 (text : List Char) : List Char := joinSpace (pySplit text)

/-- Line 250 of `_clean_text`: `text.replace('\n', ' ').replace('\t', ' ')`
(single-character substring replacement is a character map). -/
def clean_step2 (t : List Char) : List Char :=
  (t.map (fun c => if c = '\n' then ' ' else c)).map (fun c => if c = '\t' then ' ' else c)

/-- Lines 252-254 of `_clean_text`: append `'.'` unless the text already ends
with terminal punctuation. -/
def clean_step3 (t : List Char) : List Char :=
  if endsWithTerminal t then t else t ++ ['.']

/-- `ChunkProcessor._clean_text(text)`: collapse whitespace, replace embedded
line breaks and tabs, enforce a terminal punctuation mark, and strip. -/
def clean_text (text : List Char) : List Char :=
  pyStrip (clean_step3 (clean_step2 (clean_step1 text)))

/-! ## `ChunkProcessor.parse_qa_response` (`src/chunk_processor.py`, 181-214). -/

/-- One parsed question/answer record. -/
structure QAPair where
  question : List Char
  answer : List Char
deriving DecidableEq, Repr

/-- The body of the `for part in parts[1:]` loop of `parse_qa_response`:
the records (zero or one) contributed by a single split segment. -/
def parse_qa_part (part0 : List Char) : List QAPair :=
  let part := pyStrip part0
  if part.isEmpty then []
  else
    match searchSplitA part with
    | none => []
    | some (qpart, apart) =>
      let question := pyStrip qpart
      let answer0 := pyStrip apart
      let answer :=
        match searchBeforeQ answer0 with
        | some pre => pyStrip pre
        | none => answer0
      if validate_qa_pair question answer then
        [⟨clean_text question, clean_text answer⟩]
      else []

/-- `ChunkProcessor.parse_qa_response(response)`: strip code fences and outer
whitespace, split on the newline-optional case-insensitive `Q:` marker, drop
the preamble, and process each segment with `parse_qa_part`. -/
def parse_qa_response (response : List Char) : List QAPair :=
  let cleaned := pyStrip (removeTripleBacktick response)
  ((reSplitQ cleaned).drop 1).flatMap parse_qa_part

/-! ## `ChunkProcessor.call_llm` (`src/chunk_processor.py`, 137-179).

The network is modelled as a function from the attempt index to the attempt's
outcome: either a raised exception (covering transport errors and bad JSON) or
an HTTP response carrying a status code and the value of
`response.json().get('response', '')`. -/

/-- Outcome of one `requests.post` attempt. -/
inductive LLMOutcome where
  | exn
  | http (status : Nat) (body : List Char)
deriving DecidableEq, Repr

/-- The per-attempt success test of `call_llm`: a 200 status whose stripped
`response` field is non-empty and longer than 50 characters yields that
stripped text; anything else is a retryable failure. -/
def attemptSuccess (o : LLMOutcome) : Option (List Char) :=
  match o with
  | .exn => none
  | .http status body =>
    if status = 200 then
      let result := pyStrip body
      if ¬result.isEmpty ∧ 50 < result.length then some result else none
    else none

/-- Observable result of `call_llm`: the returned string, the number of
attempts issued, and the total seconds slept between attempts. -/
structure LLMResult where
  result : List Char
  attemptsMade : Nat
  sleepSeconds : Nat
deriving DecidableEq, Repr

/-- The retry loop of `call_llm` from attempt index `attempt`
(`for attempt in range(max_retries)`): a successful attempt returns at once;
a failed attempt sleeps 2 seconds unless it was the last one. -/
def call_llm_from (outcomes : Nat → LLMOutcome) (max_retries attempt : Nat) : LLMResult :=
  if attempt < max_retries then
    match attemptSuccess (outcomes attempt) with
    | some r => ⟨r, 1, 0⟩
    | none =>
      let sleep := if attempt < max_retries - 1 then 2 else 0
      let rest := call_llm_from outcomes max_retries (attempt + 1)
      ⟨rest.result, rest.attemptsMade + 1, sleep + rest.sleepSeconds⟩
  else ⟨[], 0, 0⟩
termination_by max_retries - attempt

/-- `ChunkProcessor.call_llm(prompt, max_retries)`. -/
def call_llm (outcomes : Nat → LLMOutcome) (max_retries : Nat) : LLMResult :=
  call_llm_from outcomes max_retries 0

/-! ## `ChunkProcessor.find_unprocessed_chunks` (`src/chunk_processor.py`, 40-65).

The formatted-output store is modelled as a function from a document's file
identifier to the state of its formatted file.  Only the length of
`data.get('qa_pairs', [])` is inspected, so `loaded` carries that length
(a missing `qa_pairs` key reads as the empty list, length 0). -/

/-- State of a document's persisted formatted file. -/
inductive FormattedState where
  | missing
  | raisesOnLoad
  | loaded (qaCount : Nat)
deriving DecidableEq, Repr

/-- The per-file decision of the discovery loop: `needs_processing` stays
`True` unless the formatted file exists, loads, and holds at least one
Q&A pair; any exception while loading is swallowed (`except: pass`). -/
def needs_processing (st : FormattedState) : Bool :=
  match st with
  | .missing => true
  | .raisesOnLoad => true
  | .loaded n => decide (n = 0)

/-- `ChunkProcessor.find_unprocessed_chunks()`: the returned work list and the
`chunks_found` / `already_processed` statistics it accumulates. -/
def find_unprocessed_chunks (chunkFiles : List Nat) (store : Nat → FormattedState) :
    List Nat × Nat × Nat :=
  (chunkFiles.filter (fun f => needs_processing (store f)),
   chunkFiles.length,
   (chunkFiles.filter (fun f => !needs_processing (store f))).length)

/-! ## `ChunkProcessor.process_chunk_file` (`src/chunk_processor.py`, 258-326).

The generation client is modelled as a function from the chunk index to the
string `call_llm` returns for that chunk's prompt (`[]` for the empty string
that signals failure). -/

/-- One entry of the loaded chunk file's `chunks` list (the fields the loop
reads; `doc_type` and `title` only feed the prompt text). -/
structure InChunk where
  text : List Char
  doc_type : List Char
  title : List Char
deriving Repr

/-- Records contributed by chunk `i` inside the `for i, chunk in
enumerate(chunks)` loop: short or empty chunk texts are skipped, a failed
generation contributes nothing, otherwise the response is parsed. -/
def chunk_contribution (llm : Nat → List Char) (i : Nat) (c : InChunk) : List QAPair :=
  let text := pyStrip c.text
  if text.isEmpty || text.length < 50 then []
  else
    let response := llm i
    if response.isEmpty then []
    else parse_qa_response response

/-- The document's accumulated `all_qa_pairs` list. -/
def collected_pairs (chunks : List InChunk) (llm : Nat → List Char) : List QAPair :=
  chunks.enum.flatMap (fun p => chunk_contribution llm p.1 p.2)

/-- Observable outcome of `process_chunk_file`: the persisted `qa_pairs` list
(`none` when no file is written), the boolean return value, and the deltas to
the `successfully_processed` and `failed` counters. -/
structure ProcessResult where
  written : Option (List QAPair)
  success : Bool
  succ_delta : Nat
  failed_delta : Nat
deriving Repr

/-- `ChunkProcessor.process_chunk_file(chunk_file)` for an already-loaded
chunk list: after the chunk loop, a non-empty accumulated list is persisted
and counted a success; an empty one writes nothing and is counted a failure. -/
def process_chunk_file (chunks : List InChunk) (llm : Nat → List Char) : ProcessResult :=
  let all := collected_pairs chunks llm
  if ¬all.isEmpty then ⟨some all, true, 1, 0⟩
  else ⟨none, false, 0, 1⟩

/-! ## `DocumentChunker.chunk_text` (`src/process_data.py`, 43-77). -/

/-- The two `ExtractionConfig` fields `chunk_text` reads
(`max_chunk_size`, `overlap_size`; the remaining fields are directory paths
and extractor toggles unused by the chunker). -/
structure ExtractionConfig where
  max_chunk_size : Nat
  overlap_size : Nat
deriving Repr

/-- The defaults of `ExtractionConfig`. -/
def defaultExtractionConfig : ExtractionConfig := ⟨4000, 200⟩

/-- Python `range(0, stop, step)` for `step` a (possibly negative) integer:
a zero step raises `ValueError`; a negative step with a non-negative stop is
empty; a positive step `s` yields `k * s` for `k < ceil(stop / s)`
(the documented semantics of `range`). -/
def pyRange (stop : Nat) (step : Int) : Except String (List Nat) :=
  if step = 0 then .error "range() arg 3 must not be zero"
  else if step < 0 then .ok []
  else .ok ((List.range ((stop + step.toNat - 1) / step.toNat)).map (fun k => k * step.toNat))

/-- One chunk record produced by `chunk_text`.  `total_chunks` holds the
backfilled final count (the transient `-1` of the two-pass construction is
never observable in the returned list).  The single-chunk branch builds a dict
without the `overlap_start` / `overlap_end` keys, hence the `Option`. -/
structure PyChunk where
  text : List Char
  chunk_id : Nat
  total_chunks : Nat
  overlap_start : Option Bool
  overlap_end : Option Bool
deriving DecidableEq, Repr

/-- `DocumentChunker.chunk_text(text, title, doc_type)` (title and doc-type
fields are copied verbatim into every chunk and are omitted here).  A text of
at most `max_chunk_size` words is returned whole as chunk 0 of 1; otherwise a
window of `max_chunk_size` words is taken at each index of
`range(0, len(words), chunk_size - overlap)`.  The `Except` propagates the
`ValueError` that `range` raises on a zero step. -/
def chunk_text (cfg : ExtractionConfig) (text : List Char) :
    Except String (List PyChunk) :=
  if (pySplit text).length ≤ cfg.max_chunk_size then
    Except.ok [⟨text, 0, 1, none, none⟩]
  else
    (pyRange (pySplit text).length
      ((cfg.max_chunk_size : Int) - (cfg.overlap_size : Int))).map
      (fun idxs => idxs.enum.map (fun p =>
        ⟨joinSpace (((pySplit text).drop p.2).take cfg.max_chunk_size),
         p.1, idxs.length,
         some (decide (0 < p.2)),
         some (decide (p.2 + cfg.max_chunk_size < (pySplit text).length))⟩))

/-- Concatenate word windows after removing from every window but the first
its first `o` words. -/
def reconstructWindows {α : Type} (o : Nat) : List (List α) → List α
  | [] => []
  | w :: rest => w ++ rest.flatMap (fun v => v.drop o)

/-- The word windows a positive-stride sliding pass produces: window `k`
starts at offset `k * s` and holds `m` words. -/
def windowsOf {α : Type} (m s : Nat) (l : List α) (c : Nat) : List (List α) :=
  (List.range c).map (fun k => (l.drop (k * s)).take m)

/-- `(n + s - 1) / s`, the chunk count of a positive-stride pass over `n` words. -/
def ceilDiv (n s : Nat) : Nat := (n + s - 1) / s

/-- A piece of `pySplit` output: non-empty and free of whitespace. -/
def isWordP (w : List Char) : Prop := w ≠ [] ∧ ∀ c ∈ w, pyIsSpace c = false

/-- Append `x` to the last word of `ws` (`[x]` when `ws` is empty). -/
def appendToLast (x : List Char) : List (List Char) → List (List Char)
  | [] => [x]
  | [w] => [w ++ x]
  | w :: y :: rest => w :: appendToLast x (y :: rest)

/-- Store used by the C6 witness. -/
def storeExample : Nat → FormattedState := fun f =>
  if f = 0 then .loaded 2 else if f = 1 then .raisesOnLoad else .missing

/-- Chunk list used by the C7 witness (three chunks, each 50+ characters). -/
def chunksExample : List InChunk :=
  [⟨"This is the first chunk of source text and it is long enough to process.".toList,
    "writeup".toList, "Example".toList⟩,
   ⟨"This is the second chunk of source text and it is long enough to process.".toList,
    "writeup".toList, "Example".toList⟩,
   ⟨"This is the third chunk of source text and it is long enough to process.".toList,
    "writeup".toList, "Example".toList⟩]

/-- Generation client used by the C7 witness: fails on chunk 1. -/
def llmExample : Nat → List Char := fun i =>
  if i = 1 then []
  else ("Q: What tools are used for network enumeration?\nA: Nmap and masscan are commonly used tools for the enumeration of networks.".toList)

/-! ## Lemmas about the string primitives -/

lemma head?_dropWhile_false {α : Type} (p : α → Bool) :
    ∀ l : List α, ∀ a ∈ (l.dropWhile p).head?, p a = false := by
  intro l
  induction l with
  | nil => intro a ha; simp [List.dropWhile] at ha
  | cons c t ih =>
    intro a ha
    by_cases hc : p c
    · rw [List.dropWhile_cons, if_pos hc] at ha
      exact ih a ha
    · rw [List.dropWhile_cons, if_neg hc] at ha
      simp at ha
      subst ha
      simpa using hc

lemma dropWhile_eq_self_of {α : Type} (p : α → Bool) (l : List α)
    (h : ∀ a ∈ l.head?, p a = false) : l.dropWhile p = l := by
  cases l with
  | nil => rfl
  | cons c t =>
    have hc : p c = false := h c (by simp)
    rw [List.dropWhile_cons, if_neg (by simp [hc])]

lemma getLast?_dropWhile_of_ne {α : Type} (p : α → Bool) :
    ∀ l : List α, l.dropWhile p ≠ [] → (l.dropWhile p).getLast? = l.getLast? := by
  intro l
  induction l with
  | nil => intro h; simp [List.dropWhile] at h
  | cons c t ih =>
    intro h
    by_cases hc : p c
    · rw [List.dropWhile_cons, if_pos hc] at h ⊢
      have ht : t ≠ [] := by
        intro he; subst he; simp [List.dropWhile] at h
      rw [ih h]
      cases t with
      | nil => exact absurd rfl ht
      | cons x xs => simp [List.getLast?_cons_cons]
    · rw [List.dropWhile_cons, if_neg hc]

lemma pyStrip_eq_self_of_ends (l : List Char)
    (h1 : ∀ a ∈ l.head?, pyIsSpace a = false)
    (h2 : ∀ a ∈ l.getLast?, pyIsSpace a = false) : pyStrip l = l := by
  unfold pyStrip
  rw [dropWhile_eq_self_of _ _ h1]
  rw [dropWhile_eq_self_of _ _ (by simpa using h2)]
  exact l.reverse_reverse

lemma pyStrip_head (l : List Char) :
    ∀ a ∈ (pyStrip l).head?, pyIsSpace a = false := by
  intro a ha
  unfold pyStrip at ha
  rw [List.head?_reverse] at ha
  by_cases hq : ((l.dropWhile pyIsSpace).reverse.dropWhile pyIsSpace) = []
  · rw [hq] at ha; simp at ha
  · rw [getLast?_dropWhile_of_ne _ _ hq, List.getLast?_reverse] at ha
    exact head?_dropWhile_false pyIsSpace l a ha

lemma pyStrip_getLast (l : List Char) :
    ∀ a ∈ (pyStrip l).getLast?, pyIsSpace a = false := by
  intro a ha
  unfold pyStrip at ha
  rw [List.getLast?_reverse] at ha
  exact head?_dropWhile_false pyIsSpace _ a ha

lemma pyStrip_idem (l : List Char) : pyStrip (pyStrip l) = pyStrip l :=
  pyStrip_eq_self_of_ends _ (pyStrip_head l) (pyStrip_getLast l)

/-! ## Lemmas about `call_llm` -/

lemma attemptSuccess_shape (o : LLMOutcome) (r : List Char)
    (h : attemptSuccess o = some r) : 50 < r.length ∧ pyStrip r = r := by
  cases o with
  | exn => simp [attemptSuccess] at h
  | http status body =>
    simp only [attemptSuccess] at h
    by_cases hs : status = 200
    · rw [if_pos hs] at h
      by_cases hr : ¬(pyStrip body).isEmpty ∧ 50 < (pyStrip body).length
      · rw [if_pos hr] at h
        cases h
        exact ⟨hr.2, pyStrip_idem body⟩
      · rw [if_neg hr] at h; simp at h
    · rw [if_neg hs] at h; simp at h

lemma call_llm_from_all_fail (outcomes : Nat → LLMOutcome) (mr : Nat) :
    ∀ n a, mr - a = n →
    (∀ i, a ≤ i → i < mr → attemptSuccess (outcomes i) = none) →
    call_llm_from outcomes mr a = ⟨[], mr - a, 2 * (mr - 1 - a)⟩ := by
  intro n
  induction n with
  | zero =>
    intro a ha _
    unfold call_llm_from
    have hge : ¬ a < mr := by omega
    rw [if_neg hge]
    have h1 : mr - a = 0 := ha
    have h2 : 2 * (mr - 1 - a) = 0 := by omega
    rw [h1, h2]
  | succ n ih =>
    intro a ha h
    unfold call_llm_from
    have hlt : a < mr := by omega
    rw [if_pos hlt, h a le_rfl hlt]
    simp only []
    rw [ih (a + 1) (by omega) (fun i hi1 hi2 => h i (by omega) hi2)]
    by_cases hl : a < mr - 1
    · rw [if_pos hl]
      have e1 : mr - (a + 1) + 1 = mr - a := by omega
      have e2 : 2 + 2 * (mr - 1 - (a + 1)) = 2 * (mr - 1 - a) := by omega
      rw [e1, e2]
    · rw [if_neg hl]
      have e1 : mr - (a + 1) + 1 = mr - a := by omega
      have e2 : (0 : Nat) + 2 * (mr - 1 - (a + 1)) = 2 * (mr - 1 - a) := by omega
      rw [e1, e2]

lemma call_llm_from_result_shape (outcomes : Nat → LLMOutcome) (mr : Nat) :
    ∀ n a, mr - a = n →
    (call_llm_from outcomes mr a).result = [] ∨
      (50 < (call_llm_from outcomes mr a).result.length ∧
        pyStrip (call_llm_from outcomes mr a).result = (call_llm_from outcomes mr a).result) := by
  intro n
  induction n with
  | zero =>
    intro a ha
    unfold call_llm_from
    rw [if_neg (by omega : ¬ a < mr)]
    exact Or.inl rfl
  | succ n ih =>
    intro a ha
    unfold call_llm_from
    rw [if_pos (by omega : a < mr)]
    cases hs : attemptSuccess (outcomes a) with
    | some r => exact Or.inr (attemptSuccess_shape _ _ hs)
    | none =>
      simp only []
      exact ih (a + 1) (by omega)

/-! ## Lemmas about `process_chunk_file` -/

lemma flatMap_filter_eq {α β : Type} (q : α → Bool) (f : α → List β) :
    ∀ l : List α, (∀ a ∈ l, q a = false → f a = []) →
    l.flatMap f = (l.filter q).flatMap f := by
  intro l
  induction l with
  | nil => intro _; rfl
  | cons a l ih =>
    intro h
    rw [List.flatMap_cons, List.filter_cons]
    by_cases hq : q a
    · rw [if_pos hq, List.flatMap_cons,
        ih (fun b hb hbq => h b (List.mem_cons_of_mem a hb) hbq)]
    · rw [if_neg hq, h a (List.mem_cons_self a l) (by simpa using hq),
        List.nil_append, ih (fun b hb hbq => h b (List.mem_cons_of_mem a hb) hbq)]

lemma chunk_contribution_of_llm_nil (llm : Nat → List Char) (i : Nat) (c : InChunk)
    (h : llm i = []) : chunk_contribution llm i c = [] := by
  unfold chunk_contribution
  by_cases h1 : (pyStrip c.text).isEmpty || (pyStrip c.text).length < 50
  · rw [if_pos h1]
  · rw [if_neg h1]
    simp only [h]
    rfl

/-! ## Lemmas about `chunk_text` -/

lemma pyRange_pos (stop m o : Nat) (h : o < m) :
    pyRange stop ((m : Int) - (o : Int)) =
      .ok ((List.range ((stop + (m - o) - 1) / (m - o))).map (fun k => k * (m - o))) := by
  unfold pyRange
  have h0 : ¬ ((m : Int) - (o : Int) = 0) := by omega
  have h1 : ¬ ((m : Int) - (o : Int) < 0) := by omega
  rw [if_neg h0, if_neg h1]
  have h2 : ((m : Int) - (o : Int)).toNat = m - o := by omega
  rw [h2]

/-! ## Lemmas about `pySplit` and `joinSpace` -/

lemma pySplitAux_words :
    ∀ (cs acc : List Char), (∀ c ∈ acc, pyIsSpace c = false) →
    ∀ w ∈ pySplitAux cs acc, isWordP w := by
  intro cs
  induction cs with
  | nil =>
    intro acc hacc w hw
    unfold pySplitAux at hw
    by_cases he : acc.isEmpty
    · rw [if_pos he] at hw
      simp at hw
    · rw [if_neg he] at hw
      simp only [List.mem_singleton] at hw
      subst hw
      refine ⟨by simpa [List.isEmpty_iff] using he, ?_⟩
      intro c hc
      exact hacc c (by simpa using hc)
  | cons c rest ih =>
    intro acc hacc w hw
    unfold pySplitAux at hw
    by_cases hsp : pyIsSpace c
    · rw [if_pos hsp] at hw
      by_cases he : acc.isEmpty
      · rw [if_pos he] at hw
        exact ih [] (by simp) w hw
      · rw [if_neg he] at hw
        rcases List.mem_cons.mp hw with hw1 | hw2
        · subst hw1
          refine ⟨by simpa [List.isEmpty_iff] using he, ?_⟩
          intro d hd
          exact hacc d (by simpa using hd)
        · exact ih [] (by simp) w hw2
    · rw [if_neg hsp] at hw
      refine ih (c :: acc) ?_ w hw
      intro d hd
      rcases List.mem_cons.mp hd with hd1 | hd2
      · subst hd1; simpa using hsp
      · exact hacc d hd2

lemma pySplit_words (cs : List Char) : ∀ w ∈ pySplit cs, isWordP w :=
  pySplitAux_words cs [] (by simp)

lemma pySplitAux_word_prefix :
    ∀ (w cs acc : List Char), (∀ c ∈ w, pyIsSpace c = false) →
    pySplitAux (w ++ cs) acc = pySplitAux cs (w.reverse ++ acc) := by
  intro w
  induction w with
  | nil => intro cs acc _; simp
  | cons c w ih =>
    intro cs acc hw
    have hc : pyIsSpace c = false := hw c (List.mem_cons_self c w)
    have h1 : pySplitAux ((c :: w) ++ cs) acc = pySplitAux (w ++ cs) (c :: acc) := by
      show pySplitAux (c :: (w ++ cs)) acc = _
      simp [pySplitAux, hc]
    rw [h1, ih cs (c :: acc) (fun d hd => hw d (List.mem_cons_of_mem c hd))]
    simp [List.append_assoc]

lemma pySplit_joinSpace :
    ∀ ws : List (List Char), (∀ w ∈ ws, isWordP w) →
    pySplit (joinSpace ws) = ws := by
  intro ws
  induction ws with
  | nil => intro _; rfl
  | cons w ws ih =>
    intro h
    have hw : isWordP w := h w (List.mem_cons_self w ws)
    cases ws with
    | nil =>
      show pySplitAux (joinSpace [w]) [] = [w]
      have : joinSpace [w] = w ++ [] := by simp [joinSpace]
      rw [this, pySplitAux_word_prefix w [] [] hw.2]
      unfold pySplitAux
      rw [if_neg (by simp [List.isEmpty_iff]; exact hw.1)]
      simp
    | cons x rest =>
      show pySplitAux (joinSpace (w :: x :: rest)) [] = w :: x :: rest
      have hj : joinSpace (w :: x :: rest) = w ++ ' ' :: joinSpace (x :: rest) := rfl
      rw [hj, pySplitAux_word_prefix w _ [] hw.2]
      unfold pySplitAux
      rw [if_pos (by simp [pyIsSpace])]
      rw [if_neg (by simp [List.isEmpty_iff]; exact hw.1)]
      have ihx := ih (fun v hv => h v (List.mem_cons_of_mem w hv))
      simp only [List.append_nil, List.reverse_reverse]
      exact congrArg (w :: ·) ihx

/-! ## Lemmas about sliding windows -/

lemma windowsOf_succ {α : Type} (m s : Nat) (l : List α) (c : Nat) :
    windowsOf m s l (c + 1) = l.take m :: windowsOf m s (l.drop s) c := by
  unfold windowsOf
  rw [List.range_succ_eq_map]
  simp only [List.map_cons, List.map_map]
  have hfun : ∀ k : Nat, (l.drop (Nat.succ k * s)).take m =
      ((l.drop s).drop (k * s)).take m := by
    intro k
    rw [List.drop_drop]
    have : Nat.succ k * s = s + k * s := by rw [Nat.succ_mul, Nat.add_comm]
    rw [this]
  refine congrArg₂ List.cons (by simp) ?_
  exact List.map_congr_left (fun k _ => hfun k)

lemma windowsOf_zero {α : Type} (m s : Nat) (l : List α) : windowsOf m s l 0 = [] := rfl

lemma windowsOf_one {α : Type} (m s : Nat) (l : List α) :
    windowsOf m s l 1 = [l.take m] := by
  have h := windowsOf_succ m s l 0
  rw [windowsOf_zero] at h
  exact h

lemma ceilDiv_eq_one (n s : Nat) (h0 : 0 < n) (hs : n ≤ s) : ceilDiv n s = 1 := by
  unfold ceilDiv
  have h1 : n + s - 1 = (n - 1) + s := by omega
  rw [h1, Nat.add_div_right _ (by omega : 0 < s), Nat.div_eq_of_lt (by omega : n - 1 < s)]

lemma ceilDiv_sub_self (n s : Nat) (hs : 0 < s) (h : s < n) :
    ceilDiv n s = ceilDiv (n - s) s + 1 := by
  unfold ceilDiv
  have h1 : n + s - 1 = ((n - s) + s - 1) + s := by omega
  rw [h1, Nat.add_div_right _ hs]

lemma windows_flatMap_drop {α : Type} (m o : Nat) (ho : o < m) :
    ∀ (n : Nat) (l : List α), l.length = n → l ≠ [] →
    (windowsOf m (m - o) l (ceilDiv l.length (m - o))).flatMap (fun w => w.drop o) =
      l.drop o := by
  intro n
  induction n using Nat.strong_induction_on with
  | _ n ih =>
    intro l hn hne
    have hs : 0 < m - o := by omega
    have hlen : 0 < l.length := List.length_pos.mpr hne
    by_cases hsmall : l.length ≤ m - o
    · rw [ceilDiv_eq_one _ _ hlen hsmall, windowsOf_one]
      simp only [List.flatMap_cons, List.flatMap_nil, List.append_nil]
      rw [List.drop_take]
      have hlo : (l.drop o).length ≤ m - o := by
        rw [List.length_drop]; omega
      exact List.take_of_length_le hlo
    · push_neg at hsmall
      rw [ceilDiv_sub_self _ _ hs hsmall, windowsOf_succ, List.flatMap_cons]
      have hdl : (l.drop (m - o)).length = l.length - (m - o) := List.length_drop _ _
      have hne2 : l.drop (m - o) ≠ [] := by
        rw [← List.length_pos, hdl]; omega
      have hrw : ceilDiv (l.length - (m - o)) (m - o) =
          ceilDiv (l.drop (m - o)).length (m - o) := by rw [hdl]
      rw [hrw, ih (l.drop (m - o)).length (by omega) _ rfl hne2]
      rw [List.drop_take, List.drop_drop]
      have e1 : m - o + o = o + (m - o) := by omega
      rw [e1, ← List.drop_drop]
      exact List.take_append_drop _ _

lemma windows_reconstruct {α : Type} (m o : Nat) (ho : o < m)
    (l : List α) (hne : l ≠ []) :
    reconstructWindows o (windowsOf m (m - o) l (ceilDiv l.length (m - o))) = l := by
  have hs : 0 < m - o := by omega
  have hlen : 0 < l.length := List.length_pos.mpr hne
  by_cases hsmall : l.length ≤ m - o
  · rw [ceilDiv_eq_one _ _ hlen hsmall, windowsOf_one]
    show List.take m l ++ ([] : List (List α)).flatMap (fun v => List.drop o v) = l
    rw [List.flatMap_nil, List.append_nil]
    exact List.take_of_length_le (by omega)
  · push_neg at hsmall
    rw [ceilDiv_sub_self _ _ hs hsmall, windowsOf_succ]
    show List.take m l ++ (windowsOf m (m - o) (List.drop (m - o) l)
        (ceilDiv (l.length - (m - o)) (m - o))).flatMap (fun v => List.drop o v) = l
    have hdl : (l.drop (m - o)).length = l.length - (m - o) := List.length_drop _ _
    have hne2 : l.drop (m - o) ≠ [] := by
      rw [← List.length_pos, hdl]; omega
    have hrw : ceilDiv (l.length - (m - o)) (m - o) =
        ceilDiv (l.drop (m - o)).length (m - o) := by rw [hdl]
    rw [hrw, windows_flatMap_drop m o ho (l.drop (m - o)).length _ rfl hne2]
    rw [List.drop_drop]
    have e1 : m - o + o = m := by omega
    rw [e1]
    exact List.take_append_drop _ _

/-! ## Lemmas about `clean_text` -/

lemma map_id_of {α : Type} (f : α → α) :
    ∀ l : List α, (∀ c ∈ l, f c = c) → l.map f = l := by
  intro l
  induction l with
  | nil => intro _; rfl
  | cons c t ih =>
    intro h
    rw [List.map_cons, h c (List.mem_cons_self c t),
      ih (fun d hd => h d (List.mem_cons_of_mem c hd))]

lemma not_space_facts (c : Char) (h : pyIsSpace c = false) :
    c ≠ '\n' ∧ c ≠ '\t' ∧ c ≠ ' ' := by
  refine ⟨?_, ?_, ?_⟩ <;> intro he <;> subst he <;> simp [pyIsSpace] at h

lemma joinSpace_chars :
    ∀ ws : List (List Char), (∀ w ∈ ws, ∀ c ∈ w, pyIsSpace c = false) →
    ∀ c ∈ joinSpace ws, c = ' ' ∨ pyIsSpace c = false := by
  intro ws
  induction ws with
  | nil => intro _ c hc; simp [joinSpace] at hc
  | cons w ws ih =>
    intro h c hc
    cases ws with
    | nil =>
      exact Or.inr (h w (List.mem_cons_self w []) c (by simpa [joinSpace] using hc))
    | cons x rest =>
      have hj : joinSpace (w :: x :: rest) = w ++ ' ' :: joinSpace (x :: rest) := rfl
      rw [hj] at hc
      rcases List.mem_append.mp hc with hc1 | hc2
      · exact Or.inr (h w (List.mem_cons_self w _) c hc1)
      · rcases List.mem_cons.mp hc2 with hc3 | hc4
        · exact Or.inl hc3
        · exact ih (fun v hv => h v (List.mem_cons_of_mem w hv)) c hc4

lemma joinSpace_cons_head :
    ∀ (x : List Char) (rest : List (List Char)), x ≠ [] →
    ∃ c t, joinSpace (x :: rest) = c :: t ∧ c ∈ x := by
  intro x rest hx
  cases x with
  | nil => exact absurd rfl hx
  | cons c x2 =>
    cases rest with
    | nil => exact ⟨c, x2, rfl, List.mem_cons_self c x2⟩
    | cons y r =>
      exact ⟨c, x2 ++ ' ' :: joinSpace (y :: r), rfl, List.mem_cons_self c x2⟩

lemma joinSpace_head :
    ∀ ws : List (List Char), (∀ w ∈ ws, isWordP w) →
    ∀ a ∈ (joinSpace ws).head?, pyIsSpace a = false := by
  intro ws h a ha
  cases ws with
  | nil => simp [joinSpace] at ha
  | cons w ws =>
    have hw := h w (List.mem_cons_self w ws)
    obtain ⟨c, t, hj, hcw⟩ := joinSpace_cons_head w ws hw.1
    rw [hj] at ha
    simp only [List.head?_cons, Option.mem_def, Option.some.injEq] at ha
    subst ha
    exact hw.2 _ hcw

lemma nds_of_no_space :
    ∀ l : List Char, (∀ c ∈ l, c ≠ ' ') → noDoubleSpace l = true := by
  intro l
  induction l with
  | nil => intro _; rfl
  | cons a l ih =>
    intro h
    cases l with
    | nil => rfl
    | cons b rest =>
      have ha : a ≠ ' ' := h a (List.mem_cons_self a _)
      have hrest : noDoubleSpace (b :: rest) = true :=
        ih (fun c hc => h c (List.mem_cons_of_mem a hc))
      simp [noDoubleSpace, ha, hrest]

lemma nds_append_word :
    ∀ (w rest : List Char), (∀ c ∈ w, c ≠ ' ') → noDoubleSpace rest = true →
    noDoubleSpace (w ++ rest) = true := by
  intro w
  induction w with
  | nil => intro rest _ hrest; simpa using hrest
  | cons c w2 ih =>
    intro rest h hrest
    have hc : c ≠ ' ' := h c (List.mem_cons_self c w2)
    have htail : noDoubleSpace (w2 ++ rest) = true :=
      ih rest (fun d hd => h d (List.mem_cons_of_mem c hd)) hrest
    cases hw2 : w2 with
    | nil =>
      subst hw2
      cases rest with
      | nil => rfl
      | cons r rest2 =>
        simp only [List.nil_append] at htail
        simp [noDoubleSpace, hc, htail]
    | cons c2 w3 =>
      subst hw2
      simp only [List.cons_append] at htail ⊢
      simp [noDoubleSpace, hc, htail]

lemma nds_joinSpace :
    ∀ ws : List (List Char), (∀ w ∈ ws, isWordP w) →
    noDoubleSpace (joinSpace ws) = true := by
  intro ws
  induction ws with
  | nil => intro _; rfl
  | cons w ws ih =>
    intro h
    have hw := h w (List.mem_cons_self w ws)
    have hwchars : ∀ c ∈ w, c ≠ ' ' :=
      fun c hc => (not_space_facts c (hw.2 c hc)).2.2
    cases ws with
    | nil => exact nds_of_no_space w hwchars
    | cons x rest =>
      have hx := h x (List.mem_cons_of_mem w (List.mem_cons_self x rest))
      obtain ⟨c, t, hj, hcx⟩ := joinSpace_cons_head x rest hx.1
      have hc : c ≠ ' ' := (not_space_facts c (hx.2 c hcx)).2.2
      have hji : noDoubleSpace (joinSpace (x :: rest)) = true :=
        ih (fun v hv => h v (List.mem_cons_of_mem w hv))
      rw [hj] at hji
      have hsp : noDoubleSpace (' ' :: c :: t) = true := by
        simp [noDoubleSpace, hc, hji]
      show noDoubleSpace (w ++ ' ' :: joinSpace (x :: rest)) = true
      rw [hj]
      exact nds_append_word w (' ' :: c :: t) hwchars hsp

lemma not_containsSub_two_space :
    ∀ l : List Char, noDoubleSpace l = true →
    containsSub l (' ' :: ' ' :: []) = false := by
  intro l
  induction l with
  | nil => intro _; rfl
  | cons c rest ih =>
    intro h
    cases rest with
    | nil =>
      show (List.isPrefixOf _ _ || containsSub [] _) = false
      simp only [List.isPrefixOf, Bool.or_eq_false_iff]
      exact ⟨by simp [List.isPrefixOf], rfl⟩
    | cons r rest2 =>
      have h1 : ¬(c = ' ' ∧ r = ' ') := by
        by_contra hcr
        rw [hcr.1, hcr.2] at h
        simp [noDoubleSpace] at h
      have h2 : noDoubleSpace (r :: rest2) = true := by
        simp only [noDoubleSpace, Bool.and_eq_true] at h
        exact h.2
      show (List.isPrefixOf _ _ || containsSub (r :: rest2) _) = false
      rw [ih h2]
      simp only [Bool.or_false]
      show ((' ' == c) && ((' ' == r) && (List.isPrefixOf [] rest2))) = false
      by_cases hcs : c = ' '
      · have hrs : ¬ r = ' ' := fun hr => h1 ⟨hcs, hr⟩
        subst hcs
        simp [beq_iff_eq, hrs, Ne.symm hrs]
      · simp [beq_iff_eq, hcs, Ne.symm hcs]

lemma endsWithTerminal_eq_some (cs : List Char) (c : Char) (h : cs.getLast? = some c) :
    endsWithTerminal cs = isTerminalChar c := by
  unfold endsWithTerminal
  rw [h]

lemma endsWithTerminal_nil : endsWithTerminal ([] : List Char) = false := rfl

lemma isTerminalChar_not_space (c : Char) (h : isTerminalChar c = true) :
    pyIsSpace c = false := by
  simp only [isTerminalChar, Bool.or_eq_true, decide_eq_true_eq] at h
  rcases h with ((((h | h) | h) | h) | h) <;> subst h <;> rfl

lemma endsWithTerminal_getLast (l : List Char) (h : endsWithTerminal l = true) :
    ∀ a ∈ l.getLast?, pyIsSpace a = false := by
  intro a ha
  rw [Option.mem_def] at ha
  rw [endsWithTerminal_eq_some l a ha] at h
  exact isTerminalChar_not_space a h

lemma endsWithTerminal_concat (l : List Char) :
    endsWithTerminal (l ++ ['.']) = true := by
  rw [endsWithTerminal_eq_some _ '.' (List.getLast?_concat l)]
  rfl

lemma pyStrip_joinSpace_terminal (ws : List (List Char))
    (hwords : ∀ w ∈ ws, isWordP w)
    (hterm : endsWithTerminal (joinSpace ws) = true) :
    pyStrip (joinSpace ws) = joinSpace ws :=
  pyStrip_eq_self_of_ends _ (joinSpace_head ws hwords)
    (endsWithTerminal_getLast _ hterm)

lemma joinSpace_cons_of_ne (w : List Char) (L : List (List Char)) (h : L ≠ []) :
    joinSpace (w :: L) = w ++ ' ' :: joinSpace L := by
  cases L with
  | nil => exact absurd rfl h
  | cons y r => rfl

lemma appendToLast_ne_nil (x : List Char) : ∀ ws, appendToLast x ws ≠ [] := by
  intro ws
  cases ws with
  | nil => simp [appendToLast]
  | cons w ws =>
    cases ws with
    | nil => simp [appendToLast]
    | cons y r => simp [appendToLast]

lemma joinSpace_appendToLast :
    ∀ (ws : List (List Char)) (x : List Char),
    joinSpace (appendToLast x ws) = joinSpace ws ++ x := by
  intro ws
  induction ws with
  | nil => intro x; simp [appendToLast, joinSpace]
  | cons w ws ih =>
    intro x
    cases ws with
    | nil => simp [appendToLast, joinSpace]
    | cons y rest =>
      show joinSpace (w :: appendToLast x (y :: rest)) = joinSpace (w :: y :: rest) ++ x
      rw [joinSpace_cons_of_ne w _ (appendToLast_ne_nil x (y :: rest)), ih x]
      rw [joinSpace_cons_of_ne w (y :: rest) (by simp)]
      simp

lemma appendToLast_words (x : List Char) (hx : isWordP x) :
    ∀ ws, (∀ w ∈ ws, isWordP w) → ∀ w ∈ appendToLast x ws, isWordP w := by
  intro ws
  induction ws with
  | nil =>
    intro _ w hw
    simp only [appendToLast, List.mem_singleton] at hw
    subst hw
    exact hx
  | cons v ws ih =>
    intro h w hw
    cases ws with
    | nil =>
      simp only [appendToLast, List.mem_singleton] at hw
      subst hw
      have hv := h v (List.mem_cons_self v [])
      refine ⟨by simp [hv.1], ?_⟩
      intro c hc
      rcases List.mem_append.mp hc with hc1 | hc2
      · exact hv.2 c hc1
      · exact hx.2 c hc2
    | cons y rest =>
      have hwc : w ∈ v :: appendToLast x (y :: rest) := by
        simpa [appendToLast] using hw
      rcases List.mem_cons.mp hwc with hw1 | hw3
      · subst hw1; exact h w (List.mem_cons_self w _)
      · exact ih (fun v2 hv2 => h v2 (List.mem_cons_of_mem v hv2)) w hw3

lemma clean_step2_id (t : List Char)
    (h : ∀ c ∈ t, c = ' ' ∨ pyIsSpace c = false) : clean_step2 t = t := by
  unfold clean_step2
  rw [map_id_of _ t, map_id_of _ t]
  · intro c hc
    rcases h c hc with h1 | h1
    · subst h1; rfl
    · rw [if_neg (not_space_facts c h1).2.1]
  · intro c hc
    rcases h c hc with h1 | h1
    · subst h1; rfl
    · rw [if_neg (not_space_facts c h1).1]

lemma clean_text_normal_form (s : List Char) :
    ∃ ws : List (List Char), (∀ w ∈ ws, isWordP w) ∧
      clean_text s = joinSpace ws ∧ endsWithTerminal (joinSpace ws) = true := by
  have hwords := pySplit_words s
  have hchars : ∀ c ∈ joinSpace (pySplit s), c = ' ' ∨ pyIsSpace c = false :=
    joinSpace_chars _ (fun w hw => (hwords w hw).2)
  have hm : clean_step2 (clean_step1 s) = clean_step1 s := clean_step2_id _ hchars
  by_cases hterm : endsWithTerminal (joinSpace (pySplit s)) = true
  · refine ⟨pySplit s, hwords, ?_, hterm⟩
    unfold clean_text
    rw [hm]
    unfold clean_step3 clean_step1
    rw [if_pos hterm]
    exact pyStrip_joinSpace_terminal _ hwords hterm
  · have hterm2 : endsWithTerminal (joinSpace (appendToLast ['.'] (pySplit s))) = true := by
      rw [joinSpace_appendToLast]
      exact endsWithTerminal_concat _
    have hwords2 : ∀ w ∈ appendToLast ['.'] (pySplit s), isWordP w :=
      appendToLast_words ['.'] ⟨by simp, by intro c hc; simp at hc; subst hc; rfl⟩
        (pySplit s) hwords
    refine ⟨appendToLast ['.'] (pySplit s), hwords2, ?_, hterm2⟩
    unfold clean_text
    rw [hm]
    unfold clean_step3 clean_step1
    rw [if_neg hterm]
    rw [show joinSpace (pySplit s) ++ ['.'] = joinSpace (appendToLast ['.'] (pySplit s))
      from (joinSpace_appendToLast _ _).symm]
    exact pyStrip_joinSpace_terminal _ hwords2 hterm2

/-! ## Claim theorems -/

set_option maxRecDepth 100000 in
/-- C1 counterexample: on the spec's own example input, `parse_qa_response`
does not produce the two claimed records (its inline quality validation rejects
both candidate pairs, so it produces none). -/
theorem parse_spec_example_counterexample :
    parse_qa_response ("Q: foo?\nA: bar baz.\nQ: second?\nA: third answer here.".toList) ≠
      [⟨"foo?".toList, "bar baz.".toList⟩,
       ⟨"second?".toList, "third answer here.".toList⟩] := by decide

set_option maxRecDepth 100000 in
/-- C1 amended: the spec's example input yields zero records, because the
inline quality gate rejects both pairs (question shorter than 15 characters,
answer shorter than 30); on an input of the same Q/A shape whose fields pass
the gate, `parse_qa_response` produces exactly the two records in input
order. -/
theorem parse_spec_example_amended :
    parse_qa_response ("Q: foo?\nA: bar baz.\nQ: second?\nA: third answer here.".toList) = [] ∧
    parse_qa_response ("Q: What tools are used for network enumeration?\nA: Nmap and masscan are commonly used tools for the enumeration of networks.\nQ: How do you identify open ports?\nA: You can identify open ports by running a TCP scan against the target host.".toList) =
      [⟨"What tools are used for network enumeration?".toList,
        "Nmap and masscan are commonly used tools for the enumeration of networks.".toList⟩,
       ⟨"How do you identify open ports?".toList,
        "You can identify open ports by running a TCP scan against the target host.".toList⟩] := by
  decide

/-- C2 counterexample: a 10-word text with `maxWords = 4 > overlapWords = 2`
yields 5 chunks, while the claimed formula `ceil((t - o) / (m - o))` gives 4. -/
theorem chunk_count_claim_counterexample :
    (pySplit ("w1 w2 w3 w4 w5 w6 w7 w8 w9 w10".toList)).length = 10 ∧
    (chunk_text ⟨4, 2⟩ ("w1 w2 w3 w4 w5 w6 w7 w8 w9 w10".toList)).map List.length =
      Except.ok 5 ∧
    (10 - 2 + ((4 - 2) - 1)) / (4 - 2) = 4 ∧
    (5 : Nat) ≠ 4 :=
  ⟨rfl, rfl, rfl, by decide⟩

/-- C2 amended: for `overlapWords < maxWords` the chunk count is
`ceil(t / (maxWords - overlapWords))` when the text has `t > maxWords` words
(the windowing loop iterates over `range(0, t, stride)`, so the last windows
may lie wholly inside already-covered text), and exactly 1 otherwise. -/
theorem chunk_text_count (cfg : ExtractionConfig) (text : List Char) (chunks : List PyChunk)
    (ho : cfg.overlap_size < cfg.max_chunk_size)
    (h : chunk_text cfg text = .ok chunks) :
    chunks.length =
      if (pySplit text).length ≤ cfg.max_chunk_size then 1
      else ((pySplit text).length + (cfg.max_chunk_size - cfg.overlap_size) - 1)
            / (cfg.max_chunk_size - cfg.overlap_size) := by
  unfold chunk_text at h
  by_cases hle : (pySplit text).length ≤ cfg.max_chunk_size
  · rw [if_pos hle] at h
    rw [if_pos hle]
    simp only [Except.ok.injEq] at h
    subst h
    rfl
  · rw [if_neg hle] at h
    rw [if_neg hle]
    rw [pyRange_pos _ _ _ ho] at h
    simp only [Except.map, Except.ok.injEq] at h
    subst h
    simp [List.enum_length]

theorem chunk_text_count_witness :
    ([⟨"a b c".toList, 0, 3, some false, some true⟩,
      ⟨"c d e".toList, 1, 3, some true, some false⟩,
      ⟨"e".toList, 2, 3, some true, some false⟩] : List PyChunk).length =
      if (pySplit ("a b c d e".toList)).length ≤ 3 then 1
      else ((pySplit ("a b c d e".toList)).length + (3 - 1) - 1) / (3 - 1) :=
  chunk_text_count ⟨3, 1⟩ ("a b c d e".toList)
    [⟨"a b c".toList, 0, 3, some false, some true⟩,
     ⟨"c d e".toList, 1, 3, some true, some false⟩,
     ⟨"e".toList, 2, 3, some true, some false⟩] (by decide) rfl

/-- C3: with `overlapWords > maxWords` and a text longer than `maxWords`
words, `chunk_text` does not fail fast: Python's `range` with a negative step
is empty, so the function silently returns an empty chunk list; only the
equality case `overlapWords = maxWords` raises (`range` rejects a zero step). -/
theorem chunk_text_overlap_ge_max :
    chunk_text ⟨2, 3⟩ ("a b c".toList) = .ok [] ∧
    chunk_text ⟨2, 2⟩ ("a b c".toList) = .error "range() arg 3 must not be zero" :=
  ⟨rfl, rfl⟩

/-- C8: with `overlapWords < maxWords`, every chunk's word window holds at
most `maxWords` words, and concatenating the windows after removing from each
window but the first its first `overlapWords` words reconstructs the original
word sequence exactly. -/
theorem chunk_text_window_invariants (cfg : ExtractionConfig) (text : List Char)
    (chunks : List PyChunk) (ho : cfg.overlap_size < cfg.max_chunk_size)
    (h : chunk_text cfg text = .ok chunks) :
    (∀ c ∈ chunks, (pySplit c.text).length ≤ cfg.max_chunk_size) ∧
    reconstructWindows cfg.overlap_size (chunks.map (fun c => pySplit c.text)) =
      pySplit text := by
  unfold chunk_text at h
  by_cases hle : (pySplit text).length ≤ cfg.max_chunk_size
  · rw [if_pos hle] at h
    simp only [Except.ok.injEq] at h
    subst h
    constructor
    · intro c hc
      simp only [List.mem_singleton] at hc
      subst hc
      exact hle
    · simp only [List.map_cons, List.map_nil]
      show pySplit text ++ ([] : List (List (List Char))).flatMap
        (fun v => List.drop cfg.overlap_size v) = pySplit text
      rw [List.flatMap_nil, List.append_nil]
  · rw [if_neg hle] at h
    rw [pyRange_pos _ _ _ ho] at h
    simp only [Except.map, Except.ok.injEq] at h
    subst h
    push_neg at hle
    have hwne : pySplit text ≠ [] := by
      rw [← List.length_pos]; omega
    have hwords : ∀ i : Nat, ∀ w ∈ ((pySplit text).drop i).take cfg.max_chunk_size,
        isWordP w := by
      intro i w hw
      exact pySplit_words text w (List.drop_subset _ _ (List.mem_of_mem_take hw))
    constructor
    · intro c hc
      obtain ⟨p, hp, hpc⟩ := List.mem_map.mp hc
      subst hpc
      show (pySplit (joinSpace (((pySplit text).drop p.2).take cfg.max_chunk_size))).length ≤
        cfg.max_chunk_size
      rw [pySplit_joinSpace _ (hwords p.2), List.length_take]
      exact min_le_left _ _
    · rw [List.map_map]
      have hcomp : ∀ p ∈ (((List.range (((pySplit text).length +
            (cfg.max_chunk_size - cfg.overlap_size) - 1) /
            (cfg.max_chunk_size - cfg.overlap_size))).map
            (fun k => k * (cfg.max_chunk_size - cfg.overlap_size))).enum),
          ((fun c : PyChunk => pySplit c.text) ∘ (fun p : Nat × Nat =>
            (⟨joinSpace (((pySplit text).drop p.2).take cfg.max_chunk_size), p.1,
              ((List.range (((pySplit text).length +
                (cfg.max_chunk_size - cfg.overlap_size) - 1) /
                (cfg.max_chunk_size - cfg.overlap_size))).map
                (fun k => k * (cfg.max_chunk_size - cfg.overlap_size))).length,
              some (decide (0 < p.2)),
              some (decide (p.2 + cfg.max_chunk_size < (pySplit text).length))⟩ : PyChunk))) p =
          ((fun i => ((pySplit text).drop i).take cfg.max_chunk_size) ∘ Prod.snd) p := by
        intro p _
        show pySplit (joinSpace (((pySplit text).drop p.2).take cfg.max_chunk_size)) = _
        exact pySplit_joinSpace _ (hwords p.2)
      rw [List.map_congr_left hcomp, ← List.map_map, List.enum_map_snd, List.map_map]
      exact windows_reconstruct cfg.max_chunk_size cfg.overlap_size ho (pySplit text) hwne

theorem chunk_text_window_invariants_witness :
    (∀ c ∈ ([⟨"a b c".toList, 0, 3, some false, some true⟩,
             ⟨"c d e".toList, 1, 3, some true, some false⟩,
             ⟨"e".toList, 2, 3, some true, some false⟩] : List PyChunk),
      (pySplit c.text).length ≤ 3) ∧
    reconstructWindows 1
      (([⟨"a b c".toList, 0, 3, some false, some true⟩,
         ⟨"c d e".toList, 1, 3, some true, some false⟩,
         ⟨"e".toList, 2, 3, some true, some false⟩] : List PyChunk).map
        (fun c => pySplit c.text)) = pySplit ("a b c d e".toList) :=
  chunk_text_window_invariants ⟨3, 1⟩ ("a b c d e".toList)
    [⟨"a b c".toList, 0, 3, some false, some true⟩,
     ⟨"c d e".toList, 1, 3, some true, some false⟩,
     ⟨"e".toList, 2, 3, some true, some false⟩] (by decide) rfl

/-- C10: `_clean_text` is idempotent, its output always ends in one of the
terminal punctuation characters, and the output contains no tab, no newline,
and no two consecutive spaces. -/
theorem clean_text_spec (s : List Char) :
    clean_text (clean_text s) = clean_text s ∧
    endsWithTerminal (clean_text s) = true ∧
    '\t' ∉ clean_text s ∧ '\n' ∉ clean_text s ∧
    containsSub (clean_text s) (' ' :: ' ' :: []) = false := by
  obtain ⟨ws, hwords, heq, hterm⟩ := clean_text_normal_form s
  have hchars : ∀ c ∈ joinSpace ws, c = ' ' ∨ pyIsSpace c = false :=
    joinSpace_chars _ (fun w hw => (hwords w hw).2)
  refine ⟨?_, ?_, ?_, ?_, ?_⟩
  · rw [heq]
    unfold clean_text clean_step1
    rw [pySplit_joinSpace ws hwords]
    rw [clean_step2_id _ hchars]
    unfold clean_step3
    rw [if_pos hterm]
    exact pyStrip_joinSpace_terminal _ hwords hterm
  · rw [heq]; exact hterm
  · rw [heq]
    intro hmem
    rcases hchars _ hmem with h1 | h1
    · exact absurd h1 (by decide)
    · simp [pyIsSpace] at h1
  · rw [heq]
    intro hmem
    rcases hchars _ hmem with h1 | h1
    · exact absurd h1 (by decide)
    · simp [pyIsSpace] at h1
  · rw [heq]
    exact not_containsSub_two_space _ (nds_joinSpace ws hwords)

/-- C4: when every one of the first `maxRetries` attempts fails (transport
error, non-200 status, or an empty/too-short body — all collapsed by
`attemptSuccess` into the same `none`), `call_llm` returns the empty string
after exactly `maxRetries` attempts, having slept the fixed 2 seconds between
consecutive attempts; no exception propagates (the function is total). -/
theorem call_llm_failure_conversion (outcomes : Nat → LLMOutcome) (mr : Nat)
    (h : ∀ i, i < mr → attemptSuccess (outcomes i) = none) :
    call_llm outcomes mr = ⟨[], mr, 2 * (mr - 1)⟩ := by
  unfold call_llm
  rw [call_llm_from_all_fail outcomes mr (mr - 0) 0 rfl (fun i _ hi => h i hi)]
  rw [Nat.sub_zero, Nat.sub_zero]

theorem call_llm_failure_conversion_witness :
    call_llm (fun _ => LLMOutcome.exn) 3 = ⟨[], 3, 4⟩ :=
  call_llm_failure_conversion (fun _ => LLMOutcome.exn) 3 (fun _ _ => rfl)

/-- C9: `call_llm` returns either the empty string or a stripped string of
length strictly greater than 50 (never a non-empty string of at most 50
characters), and with `maxRetries = 0` it returns the empty string having
issued zero attempts and slept zero seconds. -/
theorem call_llm_result_empty_or_long (outcomes : Nat → LLMOutcome) (mr : Nat) :
    ((call_llm outcomes mr).result = [] ∨
      (50 < (call_llm outcomes mr).result.length ∧
        pyStrip (call_llm outcomes mr).result = (call_llm outcomes mr).result)) ∧
    call_llm outcomes 0 = ⟨[], 0, 0⟩ := by
  constructor
  · exact call_llm_from_result_shape outcomes mr (mr - 0) 0 rfl
  · unfold call_llm call_llm_from
    rw [if_neg (by omega : ¬ (0 : Nat) < 0)]

/-- C6: a chunk file is excluded from the work list exactly when its formatted
file exists, loads, and holds at least one Q&A pair; missing, unreadable,
corrupt, and empty-`qa_pairs` files all leave it in the work list.  Discovery
is modelled as a total function, so no exception escapes the loop (the code
swallows every load error with `except: pass`). -/
theorem find_unprocessed_spec (files : List Nat) (store : Nat → FormattedState) (f : Nat)
    (hf : f ∈ files) :
    (f ∉ (find_unprocessed_chunks files store).1 ↔
      ∃ n, store f = .loaded n ∧ 0 < n) := by
  have hmem : f ∈ (find_unprocessed_chunks files store).1 ↔
      needs_processing (store f) = true := by
    unfold find_unprocessed_chunks
    simp [List.mem_filter, hf]
  constructor
  · intro h
    have hnp : needs_processing (store f) = false := by
      cases hb : needs_processing (store f)
      · rfl
      · exact absurd (hmem.mpr hb) h
    cases hst : store f with
    | missing => rw [hst] at hnp; simp [needs_processing] at hnp
    | raisesOnLoad => rw [hst] at hnp; simp [needs_processing] at hnp
    | loaded n =>
      rw [hst] at hnp
      refine ⟨n, rfl, ?_⟩
      simp [needs_processing] at hnp
      omega
  · rintro ⟨n, hst, hn⟩ hmem'
    have hb := hmem.mp hmem'
    rw [hst] at hb
    simp [needs_processing] at hb
    omega

theorem find_unprocessed_spec_witness :
    (0 ∉ (find_unprocessed_chunks [0, 1, 2] storeExample).1 ↔
      ∃ n, storeExample 0 = .loaded n ∧ 0 < n) :=
  find_unprocessed_spec [0, 1, 2] storeExample 0 (by decide)

/-- C7: a failed generation on chunk `j` (empty client result) does not abort
the document — the accumulated list equals the concatenation of the other
chunks' contributions — and the document is persisted and counted successful
exactly when that list is non-empty; when it is empty nothing is written and
the failure counter is incremented instead. -/
theorem process_chunk_file_spec (chunks : List InChunk) (llm : Nat → List Char) (j : Nat)
    (hj : llm j = []) :
    ((process_chunk_file chunks llm).success = true ↔ collected_pairs chunks llm ≠ []) ∧
    ((process_chunk_file chunks llm).written =
      if collected_pairs chunks llm = [] then none else some (collected_pairs chunks llm)) ∧
    ((process_chunk_file chunks llm).succ_delta =
      if collected_pairs chunks llm = [] then 0 else 1) ∧
    ((process_chunk_file chunks llm).failed_delta =
      if collected_pairs chunks llm = [] then 1 else 0) ∧
    collected_pairs chunks llm =
      (chunks.enum.filter (fun p => p.1 ≠ j)).flatMap
        (fun p => chunk_contribution llm p.1 p.2) := by
  have hlast : collected_pairs chunks llm =
      (chunks.enum.filter (fun p => p.1 ≠ j)).flatMap
        (fun p => chunk_contribution llm p.1 p.2) := by
    unfold collected_pairs
    apply flatMap_filter_eq
    intro p _ hpq
    have hp : p.1 = j := by simpa using hpq
    exact chunk_contribution_of_llm_nil llm p.1 p.2 (hp ▸ hj)
  have h4 : process_chunk_file chunks llm =
      if collected_pairs chunks llm = [] then ⟨none, false, 0, 1⟩
      else ⟨some (collected_pairs chunks llm), true, 1, 0⟩ := by
    unfold process_chunk_file
    by_cases he : collected_pairs chunks llm = []
    · rw [if_pos he]
      rw [if_neg (by simp [he])]
    · rw [if_neg he]
      rw [if_pos (by simp [List.isEmpty_iff, he])]
  refine ⟨?_, ?_, ?_, ?_, hlast⟩ <;> rw [h4] <;>
    by_cases he : collected_pairs chunks llm = [] <;> simp [he]

/-- C5: the quality gate accepts a pair exactly when the question has at least
15 characters, the answer at least 30, neither lowered field contains a
placeholder marker, the lowered question contains at least one indicator
token, the answer has at least 8 whitespace-separated words, and the ratio of
distinct to total answer words is at least 0.3 (stated exactly as
`3 * total ≤ 10 * distinct`). -/
theorem validate_qa_pair_spec (q a : List Char) :
    validate_qa_pair q a = true ↔
      (15 ≤ q.length ∧ 30 ≤ a.length ∧
       (∀ p ∈ placeholders,
         containsSub (pyLower q) p = false ∧ containsSub (pyLower a) p = false) ∧
       (∃ ind ∈ question_indicators, containsSub (pyLower q) ind = true) ∧
       8 ≤ (pySplit a).length ∧
       3 * (pySplit a).length ≤ 10 * (pySplit a).dedup.length) := by
  unfold validate_qa_pair
  split_ifs with h1 h2 h3 h4 h5
  · simp only [false_iff]
    rintro ⟨hq, ha, -⟩
    simp only [Bool.or_eq_true, decide_eq_true_eq] at h1
    omega
  · simp only [false_iff]
    rintro ⟨-, -, hp, -⟩
    obtain ⟨p, hpmem, hpor⟩ := List.any_eq_true.mp h2
    obtain ⟨hpq, hpa⟩ := hp p hpmem
    rw [hpq, hpa] at hpor
    simp at hpor
  · simp only [false_iff]
    rintro ⟨-, -, -, hind, -⟩
    obtain ⟨ind, hmem, hc⟩ := hind
    simp only [Bool.not_eq_true', List.any_eq_false] at h3
    have := h3 ind hmem
    rw [hc] at this
    simp at this
  · simp only [false_iff]
    rintro ⟨-, -, -, -, hw, -⟩
    omega
  · simp only [false_iff]
    rintro ⟨-, -, -, -, -, hr⟩
    omega
  · simp only [true_iff]
    refine ⟨?_, ?_, ?_, ?_, ?_, ?_⟩
    · simp only [Bool.or_eq_true, decide_eq_true_eq, not_or] at h1
      omega
    · simp only [Bool.or_eq_true, decide_eq_true_eq, not_or] at h1
      omega
    · intro p hpmem
      rw [List.any_eq_true] at h2
      push_neg at h2
      have := h2 p hpmem
      constructor
      · by_cases hc : containsSub (pyLower q) p
        · exact absurd (by simp [hc]) this
        · simpa using hc
      · by_cases hc : containsSub (pyLower a) p
        · exact absurd (by simp [hc]) this
        · simpa using hc
    · have h3' : question_indicators.any (fun ind => containsSub (pyLower q) ind) = true := by
        cases hb : question_indicators.any (fun ind => containsSub (pyLower q) ind)
        · exact absurd (by simp [hb]) h3
        · rfl
      exact List.any_eq_true.mp h3'
    · omega
    · omega

theorem process_chunk_file_spec_witness :
    collected_pairs chunksExample llmExample =
      (chunksExample.enum.filter (fun p => p.1 ≠ 1)).flatMap
        (fun p => chunk_contribution llmExample p.1 p.2) :=
  (process_chunk_file_spec chunksExample llmExample 1 (by decide)).2.2.2.2
